import Mathlib

/-!
Verification of the hybrid retrieval core
(`app/rag/hybrid_retriever.py`): score normalization, weighted fusion,
deduplication by content-derived identity, synonym-table query expansion,
and term-overlap reranking.  Backend calls are external collaborators, so
each retrieval operation is modelled as a function of the two backends'
returned result lists.  Python floats are embedded as exact rationals.
-/

/-- A retrievable document chunk: text content plus string metadata. -/
structure Document where
  content : String
  metadata : List (String × String)
deriving DecidableEq

/-- Per-document score accumulator, one value of the `doc_scores` mapping in
`HybridRetriever._combine_results`. -/
structure ScoreEntry where
  doc : Document
  vector_score : ℚ
  bm25_score : ℚ
deriving DecidableEq

/-- The configuration stored by `HybridRetriever.__init__`. -/
structure RetrieverConfig where
  vector_weight : ℚ
  bm25_weight : ℚ
  k : Int
deriving DecidableEq

/-- The runtime error that `__init__` can raise: Python division by zero
when normalizing the weights. -/
inductive InitError where
  | zeroDivision
deriving DecidableEq

/-- Python `abs` on a rational. -/
def pyAbs (q : ℚ) : ℚ := if q < 0 then -q else q

/-- Embedding of `HybridRetriever.__init__` (weight handling): stores the
weights and `k`; when the weight sum differs from 1 by more than `1e-6`,
divides both weights by the sum, which raises a division-by-zero error when
the sum is zero.  No other validation is performed. -/
def initHybridRetriever (vector_weight bm25_weight : ℚ) (k : Int) :
    Except InitError RetrieverConfig :=
  let total_weight := vector_weight + bm25_weight
  if pyAbs (total_weight - 1) > 1 / 1000000 then
    if total_weight = 0 then .error .zeroDivision
    else .ok ⟨vector_weight / total_weight, bm25_weight / total_weight, k⟩
  else .ok ⟨vector_weight, bm25_weight, k⟩

/-- Modelled from the spec: the language-level string hash that
`_get_doc_id` applies to the content prefix.  Section 9 of the design
describes it as a process-seeded ("unstable across process restarts")
runtime hash; the implementation lives in the Python runtime, not in the
repository, so it is modelled as a concrete seeded polynomial hash whose
`seed` argument stands for the per-process hash randomization. -/
def pyHashStr (seed : Nat) (s : String) : Int :=
  Int.ofNat (s.toList.foldl (fun a c => (a * 1000003 + c.toNat) % (2 ^ 61 - 1)) seed)

/-- Embedding of `HybridRetriever._get_doc_id`: the identity of a document
is the runtime hash (parameter `h`, fixed for one process) of the first 100
characters of its content. -/
def getDocId (h : String → Int) (doc : Document) : Int :=
  h (String.mk (doc.content.toList.take 100))

/-- Python substring test `needle in hay` on character lists. -/
def pyContainsList (needle : List Char) : List Char → Bool
  | [] => needle.isEmpty
  | c :: rest => needle.isPrefixOf (c :: rest) || pyContainsList needle rest

/-- Python substring test `needle in hay` on strings. -/
def pyContains (needle hay : String) : Bool :=
  pyContainsList needle.toList hay.toList

/-- Fuelled core of Python `str.replace`: replaces non-overlapping
occurrences left to right. -/
def pyReplaceAux (old new : List Char) : Nat → List Char → List Char
  | 0, s => s
  | _ + 1, [] => []
  | fuel + 1, c :: rest =>
    if old ≠ [] && old.isPrefixOf (c :: rest) then
      new ++ pyReplaceAux old new fuel ((c :: rest).drop old.length)
    else
      c :: pyReplaceAux old new fuel rest

/-- Python `hay.replace(old, new)` for a non-empty pattern. -/
def pyReplace (old new hay : String) : String :=
  String.mk (pyReplaceAux old.toList new.toList hay.toList.length hay.toList)

/-- Fuelled core of Python `str.count`: counts non-overlapping occurrences
left to right. -/
def pyCountAux (needle : List Char) : Nat → List Char → Nat
  | 0, _ => 0
  | _ + 1, [] => 0
  | fuel + 1, c :: rest =>
    if needle ≠ [] && needle.isPrefixOf (c :: rest) then
      1 + pyCountAux needle fuel ((c :: rest).drop needle.length)
    else
      pyCountAux needle fuel rest

/-- Python `hay.count(needle)` for a non-empty pattern. -/
def pyCount (needle hay : String) : Nat :=
  pyCountAux needle.toList hay.toList.length hay.toList

/-- Python `s.lower()` (character-wise lowering). -/
def pyLower (s : String) : String := String.mk (s.toList.map Char.toLower)

/-- Character class of the regular expression `\w` (ASCII fragment of the
runtime word-character class). -/
def isWordChar (c : Char) : Bool := c.isAlphanum || c == '_'

/-- Fuelled maximal-run scanner behind `re.findall` of word runs. -/
def wordRunsAux : Nat → List Char → List (List Char)
  | 0, _ => []
  | _ + 1, [] => []
  | fuel + 1, c :: rest =>
    if isWordChar c then
      (c :: rest.takeWhile isWordChar) :: wordRunsAux fuel (rest.dropWhile isWordChar)
    else
      wordRunsAux fuel rest

/-- Embedding of `re.findall` of word runs over the lower-cased text, as
used by `calculate_relevance_score`. -/
def pyFindallWords (s : String) : List String :=
  (wordRunsAux (pyLower s).toList.length (pyLower s).toList).map String.mk

/-- Python `set(re.findall(regex, s.lower()))`. -/
def termSet (s : String) : Finset String :=
  (pyFindallWords s).toFinset

example : pyContains "股票" "苹果公司股票表现" = true := by decide
example : pyReplace "股票" "股价" "苹果公司股票表现" = "苹果公司股价表现" := by decide
example : pyCount "ab" "abcabab" = 3 := by decide
example : pyFindallWords "Apple Stock!" = ["apple", "stock"] := by decide
/-- Insertion-ordered mapping from document identity to `ScoreEntry`,
the `doc_scores` Python dict of `_combine_results`. -/
abbrev DocDict : Type := List (Int × ScoreEntry)

/-- The keys of the mapping, in insertion order. -/
def dictKeys (m : DocDict) : List Int := m.map Prod.fst

/-- Python dict lookup (first matching key; keys stay unique). -/
def dictLookup (m : DocDict) (k : Int) : Option ScoreEntry :=
  match m with
  | [] => none
  | p :: rest => if p.1 = k then some p.2 else dictLookup rest k

/-- Python dict assignment `m[k] = v`: replaces the value in place when the
key is present (keeping its position), otherwise appends. -/
def dictSet (m : DocDict) (k : Int) (v : ScoreEntry) : DocDict :=
  match m with
  | [] => [(k, v)]
  | p :: rest => if p.1 = k then (k, v) :: rest else p :: dictSet rest k v

/-- First loop of `_combine_results`: each vector hit `(doc, score)` is
stored under its document identity with normalized vector score
`1 / (1 + score)` and BM25 score `0`. -/
def processVector (h : String → Int) (m : DocDict) :
    List (Document × ℚ) → DocDict
  | [] => m
  | (doc, score) :: rest =>
      processVector h (dictSet m (getDocId h doc) ⟨doc, 1 / (1 + score), 0⟩) rest

/-- Second loop of `_combine_results`: the `i`-th BM25 hit contributes the
rank score `1 / (i + 1)`; an existing entry keeps its document and vector
score, an absent one is added with vector score `0`. -/
def processBM25 (h : String → Int) (m : DocDict) (i : Nat) :
    List Document → DocDict
  | [] => m
  | doc :: rest =>
      let id := getDocId h doc
      let s : ℚ := 1 / (i + 1)
      let m' :=
        match dictLookup m id with
        | some e => dictSet m id { e with bm25_score := s }
        | none => m ++ [(id, ⟨doc, 0, s⟩)]
      processBM25 h m' (i + 1) rest

/-- The full `doc_scores` mapping after both loops of `_combine_results`. -/
def fusedEntries (h : String → Int) (vector_docs : List (Document × ℚ))
    (bm25_docs : List Document) : DocDict :=
  processBM25 h (processVector h [] vector_docs) 0 bm25_docs

/-- Descending order on combined scores, the comparison of
`scored_docs.sort(key=..., reverse=True)`. -/
def scoreDesc (a b : Document × ℚ) : Prop := b.2 ≤ a.2

instance : DecidableRel scoreDesc :=
  fun a b => inferInstanceAs (Decidable (b.2 ≤ a.2))

instance : IsTotal (Document × ℚ) scoreDesc := ⟨fun a b => le_total b.2 a.2⟩

instance : IsTrans (Document × ℚ) scoreDesc :=
  ⟨fun _ _ _ h1 h2 => le_trans h2 h1⟩

/-- Embedding of `_combine_results` before the final projection: one
`(document, combined_score)` pair per unique identity, sorted stably by
combined score descending.  Python's `list.sort` is a stable sort, hence
modelled by the stable `insertionSort`. -/
def combineScoredDocs (h : String → Int) (vector_weight bm25_weight : ℚ)
    (vector_docs : List (Document × ℚ)) (bm25_docs : List Document) :
    List (Document × ℚ) :=
  List.insertionSort scoreDesc
    ((fusedEntries h vector_docs bm25_docs).map
      (fun p => (p.2.doc, vector_weight * p.2.vector_score + bm25_weight * p.2.bm25_score)))

/-- Embedding of `_combine_results`: the fused documents only. -/
def combineResults (h : String → Int) (vector_weight bm25_weight : ℚ)
    (vector_docs : List (Document × ℚ)) (bm25_docs : List Document) :
    List Document :=
  (combineScoredDocs h vector_weight bm25_weight vector_docs bm25_docs).map Prod.fst

/-- Embedding of `HybridRetriever._get_relevant_documents` given the two
backend result lists: fuse, then truncate to `k`. -/
def getRelevantDocuments (h : String → Int) (vector_weight bm25_weight : ℚ)
    (k : Nat) (vector_docs : List (Document × ℚ)) (bm25_docs : List Document) :
    List Document :=
  (combineResults h vector_weight bm25_weight vector_docs bm25_docs).take k

/-- Number of unique matched documents across both backends, where
identity is the content-derived id of `_get_doc_id`. -/
def uniqueMatchedCount (h : String → Int) (vector_docs : List (Document × ℚ))
    (bm25_docs : List Document) : Nat :=
  ((vector_docs.map Prod.fst ++ bm25_docs).map (getDocId h)).toFinset.card

/-- The raw distance the vector backend reported for identity `id`
(first occurrence). -/
def vectorDistance (h : String → Int) (id : Int) :
    List (Document × ℚ) → Option ℚ
  | [] => none
  | p :: rest => if getDocId h p.1 = id then some p.2 else vectorDistance h id rest

/-- The 0-indexed rank of identity `id` in the keyword backend's output
(first occurrence). -/
def keywordRank (h : String → Int) (id : Int) : List Document → Option Nat
  | [] => none
  | doc :: rest =>
      if getDocId h doc = id then some 0
      else (keywordRank h id rest).map (fun i => i + 1)

/-- Normalized vector similarity of identity `id`: `1 / (1 + d)` for its
vector distance `d`, and `0` when the vector backend did not return it. -/
def vecScoreOf (h : String → Int) (vector_docs : List (Document × ℚ))
    (id : Int) : ℚ :=
  match vectorDistance h id vector_docs with
  | some d => 1 / (1 + d)
  | none => 0

/-- Normalized keyword score of identity `id`: `1 / (r + 1)` for its
0-indexed rank `r`, and `0` when the keyword backend did not return it. -/
def kwScoreOf (h : String → Int) (bm25_docs : List Document) (id : Int) : ℚ :=
  match keywordRank h id bm25_docs with
  | some r => 1 / ((r : ℚ) + 1)
  | none => 0

/-- The synonym table of `AdvancedHybridRetriever._expand_query`, in its
Python insertion order. -/
def synonymsTable : List (String × List String) :=
  [("股票", ["股价", "股份", "证券", "投资"]),
   ("公司", ["企业", "机构", "组织"]),
   ("表现", ["业绩", "成绩", "结果", "情况"])]

/-- Embedding of `AdvancedHybridRetriever._expand_query`: starts from the
original query; for every table term contained in the query, appends one
variant per synonym (all occurrences substituted), skipping variants
already generated. -/
def expandQuery (query : String) : List String :=
  synonymsTable.foldl
    (fun expansions entry =>
      if pyContains entry.1 query then
        entry.2.foldl
          (fun exps syn =>
            let expanded := pyReplace entry.1 syn query
            if expanded ∈ exps then exps else exps ++ [expanded])
          expansions
      else expansions)
    [query]

/-- Embedding of `calculate_relevance_score` inside `_rerank_documents`:
`0.7 * jaccard + 0.3 * term_density`, with `None` denoting the Python
`ZeroDivisionError` raised when the document text is empty while the
term-set union is not. -/
def calculateRelevanceScore (queryTerms : Finset String) (doc : Document) :
    Option ℚ :=
  let docTerms := termSet doc.content
  let overlap := (queryTerms ∩ docTerms).card
  let total := (queryTerms ∪ docTerms).card
  if total = 0 then some 0
  else
    let docText := pyLower doc.content
    if docText.toList.length = 0 then none
    else
      let jaccardSim : ℚ := (overlap : ℚ) / (total : ℚ)
      let termDensity : ℚ :=
        (Finset.sum queryTerms (fun t => (pyCount t docText : ℚ))) /
          (docText.toList.length : ℚ)
      some (7 / 10 * jaccardSim + 3 / 10 * termDensity)

/-- Left-to-right evaluation of an optional function over a list, failing
at the first failure, as a Python list comprehension raises at the first
erroring element. -/
def mapOpt (f : α → Option β) : List α → Option (List β)
  | [] => some []
  | a :: l =>
    match f a with
    | none => none
    | some b =>
      match mapOpt f l with
      | none => none
      | some bs => some (b :: bs)

/-- Embedding of `_rerank_documents` keeping the relevance scores: score
every document against the query's term set, then sort stably by score
descending. -/
def rerankScored (docs : List Document) (query : String) :
    Option (List (Document × ℚ)) :=
  match mapOpt (fun d => (calculateRelevanceScore (termSet query) d).map (fun s => (d, s))) docs with
  | none => none
  | some scored => some (List.insertionSort scoreDesc scored)

/-- Embedding of `_rerank_documents`: the reranked documents only. -/
def rerankDocuments (docs : List Document) (query : String) :
    Option (List Document) :=
  (rerankScored docs query).map (fun l => l.map Prod.fst)

example : initHybridRetriever (7/10) (3/10) 0 = .ok ⟨7/10, 3/10, 0⟩ := by
  norm_num [initHybridRetriever, pyAbs]
example : initHybridRetriever 2 2 5 = .ok ⟨1/2, 1/2, 5⟩ := by
  norm_num [initHybridRetriever, pyAbs]
example : initHybridRetriever 0 0 5 = .error .zeroDivision := by
  norm_num [initHybridRetriever, pyAbs]

/-! ### Helper lemmas -/

theorem mapOpt_eq_none_of_mem {f : α → Option β} {a : α} {l : List α}
    (ha : a ∈ l) (hf : f a = none) : mapOpt f l = none := by
  induction l with
  | nil => cases ha
  | cons b l ih =>
    rcases List.mem_cons.mp ha with rfl | hmem
    · simp [mapOpt, hf]
    · cases hb : f b with
      | none => simp [mapOpt, hb]
      | some v => simp [mapOpt, hb, ih hmem]

theorem termSet_empty : termSet "" = ∅ := by decide

theorem pyLower_toList_length (s : String) :
    (pyLower s).toList.length = s.toList.length := by
  simp [pyLower]

/-! ### Claim C2 -/

/-- Claim C2 (amended): for non-negative weights not both zero,
construction succeeds and the stored weights sum to within `1e-6` of 1;
when the supplied sum differs from 1 by more than `1e-6` they are rescaled
proportionally at construction time and then sum to exactly 1, otherwise
they are stored unchanged (so the sum need not be exactly 1). -/
theorem fusion_weights_normalized (vw bw : ℚ) (k : Int)
    (hvw : 0 ≤ vw) (hbw : 0 ≤ bw) (hnz : ¬(vw = 0 ∧ bw = 0)) :
    ∃ cfg : RetrieverConfig, initHybridRetriever vw bw k = .ok cfg ∧
      pyAbs (cfg.vector_weight + cfg.bm25_weight - 1) ≤ 1 / 1000000 ∧
      (pyAbs (vw + bw - 1) > 1 / 1000000 →
        cfg.vector_weight = vw / (vw + bw) ∧ cfg.bm25_weight = bw / (vw + bw) ∧
        cfg.vector_weight + cfg.bm25_weight = 1) := by
  have htot : 0 < vw + bw := by
    rcases hvw.lt_or_eq with h | h
    · linarith
    · rcases hbw.lt_or_eq with h2 | h2
      · linarith
      · exact absurd ⟨h.symm, h2.symm⟩ hnz
  simp only [initHybridRetriever]
  by_cases hc : pyAbs (vw + bw - 1) > 1 / 1000000
  · rw [if_pos hc, if_neg htot.ne']
    have hsum : vw / (vw + bw) + bw / (vw + bw) = 1 := by
      rw [div_add_div_same, div_self htot.ne']
    refine ⟨⟨vw / (vw + bw), bw / (vw + bw), k⟩, rfl, ?_, fun _ => ⟨rfl, rfl, hsum⟩⟩
    simp only [hsum]
    norm_num [pyAbs]
  · rw [if_neg hc]
    exact ⟨⟨vw, bw, k⟩, rfl, le_of_not_lt hc, fun h => absurd h hc⟩

theorem fusion_weights_normalized_witness :
    ∃ cfg : RetrieverConfig, initHybridRetriever 2 2 10 = .ok cfg ∧
      pyAbs (cfg.vector_weight + cfg.bm25_weight - 1) ≤ 1 / 1000000 ∧
      (pyAbs ((2 : ℚ) + 2 - 1) > 1 / 1000000 →
        cfg.vector_weight = 2 / ((2 : ℚ) + 2) ∧ cfg.bm25_weight = 2 / ((2 : ℚ) + 2) ∧
        cfg.vector_weight + cfg.bm25_weight = 1) :=
  fusion_weights_normalized 2 2 10 (by norm_num) (by norm_num) (by norm_num)

/-- Claim C2 (counterexample): the pair `(0.5, 0.5000005)` is non-negative
and not both zero, yet construction stores it unchanged (its sum is within
the `1e-6` tolerance of 1) and the stored sum is not exactly 1. -/
theorem fusion_weights_not_exactly_one :
    0 ≤ (1 : ℚ) / 2 ∧ 0 ≤ (1000001 : ℚ) / 2000000 ∧
    ¬((1 : ℚ) / 2 = 0 ∧ (1000001 : ℚ) / 2000000 = 0) ∧
    initHybridRetriever (1 / 2) (1000001 / 2000000) 10 =
      .ok ⟨1 / 2, 1000001 / 2000000, 10⟩ ∧
    (1 : ℚ) / 2 + 1000001 / 2000000 ≠ 1 := by
  refine ⟨by norm_num, by norm_num, by norm_num, ?_, by norm_num⟩
  norm_num [initHybridRetriever, pyAbs]

/-! ### Claim C5 -/

/-- Claim C5 (amended): construction raises no dedicated configuration
error and never validates `k`; it fails (with a runtime division-by-zero
during weight normalization) exactly when the supplied weights sum to
zero, and succeeds for every weight pair with nonzero sum and every `k`,
including `k ≤ 0`. -/
theorem init_error_characterization (vw bw : ℚ) (k : Int) :
    (initHybridRetriever vw bw k = .error .zeroDivision ↔ vw + bw = 0) ∧
    (vw + bw ≠ 0 → ∃ cfg, initHybridRetriever vw bw k = .ok cfg) := by
  simp only [initHybridRetriever]
  by_cases h0 : vw + bw = 0
  · have hcond : pyAbs (vw + bw - 1) > 1 / 1000000 := by
      rw [h0]; norm_num [pyAbs]
    rw [if_pos hcond, if_pos h0]
    exact ⟨⟨fun _ => h0, fun _ => rfl⟩, fun hne => absurd h0 hne⟩
  · constructor
    · constructor
      · intro heq
        by_cases hc : pyAbs (vw + bw - 1) > 1 / 1000000
        · rw [if_pos hc, if_neg h0] at heq; cases heq
        · rw [if_neg hc] at heq; cases heq
      · intro h; exact absurd h h0
    · intro _
      by_cases hc : pyAbs (vw + bw - 1) > 1 / 1000000
      · rw [if_pos hc, if_neg h0]
        exact ⟨_, rfl⟩
      · rw [if_neg hc]
        exact ⟨_, rfl⟩

/-- Claim C5 (counterexample): with the default weights, construction
succeeds for `k = 0` and `k = -1`, so no failure happens for `k ≤ 0`. -/
theorem init_accepts_nonpositive_k :
    initHybridRetriever (7 / 10) (3 / 10) 0 = .ok ⟨7 / 10, 3 / 10, 0⟩ ∧
    initHybridRetriever (7 / 10) (3 / 10) (-1) = .ok ⟨7 / 10, 3 / 10, -1⟩ := by
  constructor <;> norm_num [initHybridRetriever, pyAbs]

/-! ### Claim C6 -/

/-- Claim C6 (amended): within one process run (one hash function), the
document identity is a deterministic function of content — recomputation
yields the same value, and documents with equal content get equal
identities, the identity being the hash of the 100-character content
prefix.  Across process runs the runtime hash is seeded differently, so
identities need not agree between runs. -/
theorem doc_id_deterministic_within_run (h : String → Int) (d1 d2 : Document)
    (hc : d1.content = d2.content) :
    getDocId h d1 = getDocId h d2 ∧
    getDocId h d1 = h (String.mk (d1.content.toList.take 100)) := by
  constructor
  · simp [getDocId, hc]
  · rfl

theorem doc_id_deterministic_within_run_witness :
    getDocId (pyHashStr 0) ⟨"AAPL stock outlook", [("source", "a")]⟩ =
      getDocId (pyHashStr 0) ⟨"AAPL stock outlook", [("page", "7")]⟩ ∧
    getDocId (pyHashStr 0) ⟨"AAPL stock outlook", [("source", "a")]⟩ =
      pyHashStr 0 (String.mk ("AAPL stock outlook".toList.take 100)) :=
  doc_id_deterministic_within_run (pyHashStr 0) _ _ rfl

/-- Claim C6 (counterexample): the identity of one and the same document
differs between two runs of the program (two hash seeds), so it is not a
function of the content alone and not stable across runs. -/
theorem doc_id_not_stable_across_runs :
    getDocId (pyHashStr 0) ⟨"AAPL stock outlook", []⟩ ≠
      getDocId (pyHashStr 1) ⟨"AAPL stock outlook", []⟩ := by decide

/-! ### Claim C4 -/

/-- Claim C4 (counterexample): under advanced mode the query
`"苹果公司股票表现"` expands to 12 variants, not 5 — the query contains
all three synonym-table keys (`股票`, `公司`, `表现`), not only `股票`. -/
theorem expand_query_not_five :
    (expandQuery "苹果公司股票表现").length = 12 ∧
    ¬(expandQuery "苹果公司股票表现").length = 5 := by decide

/-- Claim C4 (amended): query expansion of `"苹果公司股票表现"` returns
exactly 12 variants: the original query first, then the 4 substitutions of
the synonyms of `股票`, then the 3 of `公司`, then the 4 of `表现`, order
preserved and duplicates removed. -/
theorem expand_query_twelve_variants :
    expandQuery "苹果公司股票表现" =
      ["苹果公司股票表现",
       "苹果公司股价表现", "苹果公司股份表现", "苹果公司证券表现", "苹果公司投资表现",
       "苹果企业股票表现", "苹果机构股票表现", "苹果组织股票表现",
       "苹果公司股票业绩", "苹果公司股票成绩", "苹果公司股票结果", "苹果公司股票情况"] := by
  decide

/-! ### Claim C10 -/

/-- Claim C10: the reranking relevance computation fails on empty document
text: for a document with empty content and a query with at least one
term, the term-density division raises a division-by-zero error (`none`)
instead of returning a score; the empty-union guard yields `0.0` only when
the query's term set is empty as well; reranking any candidate list
containing such a document fails. -/
theorem relevance_empty_doc_division_by_zero (query : String) (doc : Document)
    (hdoc : doc.content = "") (hq : (termSet query).Nonempty) :
    calculateRelevanceScore (termSet query) doc = none ∧
    (∀ query2 : String, termSet query2 = ∅ →
      calculateRelevanceScore (termSet query2) doc = some 0) ∧
    (∀ docs : List Document, doc ∈ docs → rerankDocuments docs query = none) := by
  have hterms : termSet doc.content = ∅ := by rw [hdoc]; exact termSet_empty
  have hlen : (pyLower doc.content).toList.length = 0 := by
    rw [pyLower_toList_length, hdoc]; rfl
  have hmain : calculateRelevanceScore (termSet query) doc = none := by
    simp only [calculateRelevanceScore, hterms, Finset.union_empty, Finset.inter_empty]
    rw [if_neg (by simpa using hq.card_pos.ne'), if_pos hlen]
  refine ⟨hmain, ?_, ?_⟩
  · intro query2 hq2
    simp only [calculateRelevanceScore, hterms, hq2, Finset.union_empty, Finset.inter_empty]
    simp
  · intro docs hmem
    have : mapOpt (fun d => (calculateRelevanceScore (termSet query) d).map
        (fun s => (d, s))) docs = none :=
      mapOpt_eq_none_of_mem hmem (by rw [hmain]; rfl)
    simp [rerankDocuments, rerankScored, this]

theorem relevance_empty_doc_witness :
    calculateRelevanceScore (termSet "apple stock") ⟨"", []⟩ = none ∧
    (∀ query2 : String, termSet query2 = ∅ →
      calculateRelevanceScore (termSet query2) ⟨"", []⟩ = some 0) ∧
    (∀ docs : List Document, (⟨"", []⟩ : Document) ∈ docs →
      rerankDocuments docs "apple stock" = none) :=
  relevance_empty_doc_division_by_zero "apple stock" ⟨"", []⟩ rfl (by decide)

/-! ### Dictionary primitive lemmas -/

theorem dictKeys_nil : dictKeys [] = [] := rfl

theorem dictKeys_cons (p : Int × ScoreEntry) (m : DocDict) :
    dictKeys (p :: m) = p.1 :: dictKeys m := rfl

theorem dictKeys_append (m l : DocDict) :
    dictKeys (m ++ l) = dictKeys m ++ dictKeys l := by
  simp [dictKeys]

theorem dictKeys_dictSet_mem {m : DocDict} {k : Int} (v : ScoreEntry)
    (hk : k ∈ dictKeys m) : dictKeys (dictSet m k v) = dictKeys m := by
  induction m with
  | nil => cases hk
  | cons p rest ih =>
    by_cases hpk : p.1 = k
    · subst hpk
      simp [dictSet, dictKeys]
    · rcases List.mem_cons.mp hk with hh | ht
      · exact absurd hh.symm hpk
      · simp only [dictSet, if_neg hpk, dictKeys_cons, ih ht]

theorem dictKeys_dictSet_not_mem {m : DocDict} {k : Int} (v : ScoreEntry)
    (hk : k ∉ dictKeys m) : dictKeys (dictSet m k v) = dictKeys m ++ [k] := by
  induction m with
  | nil => simp [dictSet, dictKeys]
  | cons p rest ih =>
    have hpk : ¬ p.1 = k := fun hh => hk (by simp [dictKeys, hh])
    have hk2 : k ∉ dictKeys rest := fun hh => hk (by simp [dictKeys_cons]; exact Or.inr hh)
    simp [dictSet, hpk, dictKeys_cons, ih hk2]

theorem dictSet_eq_append_of_not_mem {m : DocDict} {k : Int} (v : ScoreEntry)
    (hk : k ∉ dictKeys m) : dictSet m k v = m ++ [(k, v)] := by
  induction m with
  | nil => rfl
  | cons p rest ih =>
    have hpk : ¬ p.1 = k := fun hh => hk (by simp [dictKeys, hh])
    have hk2 : k ∉ dictKeys rest := fun hh => hk (by simp [dictKeys_cons]; exact Or.inr hh)
    simp [dictSet, hpk, ih hk2]

theorem nodup_dictKeys_dictSet {m : DocDict} {k : Int} (v : ScoreEntry)
    (hm : (dictKeys m).Nodup) : (dictKeys (dictSet m k v)).Nodup := by
  by_cases hk : k ∈ dictKeys m
  · rw [dictKeys_dictSet_mem v hk]; exact hm
  · rw [dictKeys_dictSet_not_mem v hk]
    simpa [List.nodup_append] using ⟨hm, hk⟩

theorem dictLookup_dictSet_self (m : DocDict) (k : Int) (v : ScoreEntry) :
    dictLookup (dictSet m k v) k = some v := by
  induction m with
  | nil => simp [dictSet, dictLookup]
  | cons p rest ih =>
    by_cases hpk : p.1 = k
    · simp [dictSet, hpk, dictLookup]
    · simp [dictSet, hpk, dictLookup, ih]

theorem dictLookup_dictSet_ne {m : DocDict} {k k2 : Int} (v : ScoreEntry)
    (hne : k2 ≠ k) : dictLookup (dictSet m k v) k2 = dictLookup m k2 := by
  have hkk2 : ¬ k = k2 := fun hh => hne hh.symm
  induction m with
  | nil => simp [dictSet, dictLookup, hkk2]
  | cons p rest ih =>
    by_cases hpk : p.1 = k
    · subst hpk
      simp [dictSet, dictLookup, hkk2]
    · simp only [dictSet, if_neg hpk]
      by_cases hp2 : p.1 = k2
      · simp [dictLookup, hp2]
      · simp [dictLookup, hp2, ih]

theorem dictLookup_append (m l : DocDict) (k : Int) :
    dictLookup (m ++ l) k =
      match dictLookup m k with
      | some v => some v
      | none => dictLookup l k := by
  induction m with
  | nil => simp [dictLookup]
  | cons p rest ih =>
    by_cases hpk : p.1 = k
    · simp [dictLookup, hpk]
    · simp [dictLookup, hpk, ih]

theorem dictLookup_eq_none_iff {m : DocDict} {k : Int} :
    dictLookup m k = none ↔ k ∉ dictKeys m := by
  induction m with
  | nil => simp [dictLookup, dictKeys]
  | cons p rest ih =>
    by_cases hpk : p.1 = k
    · simp [dictLookup, hpk, dictKeys]
    · have hkp : ¬ k = p.1 := fun hh => hpk hh.symm
      simp [dictLookup, hpk, dictKeys_cons, ih, hkp]

theorem dictLookup_mem_keys {m : DocDict} {k : Int} {e : ScoreEntry}
    (hl : dictLookup m k = some e) : k ∈ dictKeys m := by
  by_contra hk
  rw [← dictLookup_eq_none_iff] at hk
  rw [hk] at hl
  cases hl

theorem dictLookup_mem {m : DocDict} {k : Int} {e : ScoreEntry}
    (hl : dictLookup m k = some e) : (k, e) ∈ m := by
  induction m with
  | nil => cases hl
  | cons p rest ih =>
    by_cases hpk : p.1 = k
    · simp only [dictLookup, if_pos hpk] at hl
      injection hl with he
      subst he
      subst hpk
      simp
    · simp only [dictLookup, if_neg hpk] at hl
      exact List.mem_cons_of_mem _ (ih hl)

theorem mem_of_nodup_lookup {m : DocDict} {k : Int} {e : ScoreEntry}
    (hm : (dictKeys m).Nodup) (hmem : (k, e) ∈ m) : dictLookup m k = some e := by
  induction m with
  | nil => cases hmem
  | cons p rest ih =>
    rcases List.mem_cons.mp hmem with rfl | ht
    · simp [dictLookup]
    · have hk : k ∈ dictKeys rest := List.mem_map_of_mem Prod.fst ht
      have hne : ¬ p.1 = k := by
        intro hh
        rw [dictKeys_cons] at hm
        exact (List.nodup_cons.mp hm).1 (hh ▸ hk)
      simp only [dictLookup, if_neg hne]
      exact ih (List.nodup_cons.mp (dictKeys_cons p rest ▸ hm)).2 ht

theorem countP_key_eq_one {m : DocDict} {k : Int}
    (hm : (dictKeys m).Nodup) (hk : k ∈ dictKeys m) :
    m.countP (fun p => decide (p.1 = k)) = 1 := by
  induction m with
  | nil => cases hk
  | cons p rest ih =>
    rw [dictKeys_cons, List.nodup_cons] at hm
    rw [List.countP_cons]
    by_cases hpk : p.1 = k
    · have hzero : rest.countP (fun p => decide (p.1 = k)) = 0 := by
        rw [List.countP_eq_zero]
        intro q hq hdec
        have hq1 : q.1 ∈ List.map Prod.fst rest := List.mem_map_of_mem Prod.fst hq
        rw [of_decide_eq_true hdec, ← hpk] at hq1
        exact hm.1 hq1
      simp [hzero, hpk]
    · rcases List.mem_cons.mp (dictKeys_cons p rest ▸ hk) with hh | ht
      · exact absurd hh.symm hpk
      · simp [ih hm.2 ht, hpk]

/-! ### Pipeline characterization lemmas -/

/-- First vector hit carrying identity `id`, with its distance. -/
def vectorHit (h : String → Int) (id : Int) :
    List (Document × ℚ) → Option (Document × ℚ)
  | [] => none
  | p :: rest => if getDocId h p.1 = id then some p else vectorHit h id rest

/-- First keyword hit carrying identity `id`, with its absolute rank when
enumeration starts at `i`. -/
def keywordHit (h : String → Int) (id : Int) (i : Nat) :
    List Document → Option (Nat × Document)
  | [] => none
  | doc :: rest =>
      if getDocId h doc = id then some (i, doc) else keywordHit h id (i + 1) rest

theorem vectorHit_eq_none_iff {h : String → Int} {id : Int}
    {l : List (Document × ℚ)} :
    vectorHit h id l = none ↔ ∀ p ∈ l, ¬ getDocId h p.1 = id := by
  induction l with
  | nil => simp [vectorHit]
  | cons p rest ih =>
    by_cases hp : getDocId h p.1 = id
    · simp [vectorHit, hp]
    · simp [vectorHit, hp, ih]

theorem keywordHit_eq_none_iff {h : String → Int} {id : Int} {i : Nat}
    {l : List Document} :
    keywordHit h id i l = none ↔ ∀ doc ∈ l, ¬ getDocId h doc = id := by
  induction l generalizing i with
  | nil => simp [keywordHit]
  | cons doc rest ih =>
    by_cases hd : getDocId h doc = id
    · simp [keywordHit, hd]
    · simp [keywordHit, hd, ih]

theorem vectorDistance_eq_vectorHit (h : String → Int) (id : Int)
    (l : List (Document × ℚ)) :
    vectorDistance h id l = (vectorHit h id l).map Prod.snd := by
  induction l with
  | nil => rfl
  | cons p rest ih =>
    by_cases hp : getDocId h p.1 = id
    · simp [vectorDistance, vectorHit, hp]
    · simp [vectorDistance, vectorHit, hp, ih]

theorem keywordHit_map_fst (h : String → Int) (id : Int) (i : Nat)
    (l : List Document) :
    (keywordHit h id i l).map Prod.fst = (keywordRank h id l).map (fun r => r + i) := by
  induction l generalizing i with
  | nil => rfl
  | cons doc rest ih =>
    by_cases hd : getDocId h doc = id
    · simp [keywordHit, keywordRank, hd]
    · simp only [keywordHit, keywordRank, if_neg hd, ih (i + 1), Option.map_map]
      cases keywordRank h id rest with
      | none => rfl
      | some r =>
        simp [Function.comp]
        omega

theorem dictKeys_dictSet_toFinset (m : DocDict) (k : Int) (v : ScoreEntry) :
    (dictKeys (dictSet m k v)).toFinset = insert k (dictKeys m).toFinset := by
  by_cases hk : k ∈ dictKeys m
  · rw [dictKeys_dictSet_mem v hk, Finset.insert_eq_self.mpr (List.mem_toFinset.mpr hk)]
  · rw [dictKeys_dictSet_not_mem v hk]
    ext x
    simp [or_comm]

theorem processVector_keys_toFinset (h : String → Int)
    (vdocs : List (Document × ℚ)) (m : DocDict) :
    (dictKeys (processVector h m vdocs)).toFinset =
      (dictKeys m).toFinset ∪ (vdocs.map (fun p => getDocId h p.1)).toFinset := by
  induction vdocs generalizing m with
  | nil => simp [processVector]
  | cons p rest ih =>
    obtain ⟨doc, d⟩ := p
    rw [processVector, ih, dictKeys_dictSet_toFinset]
    ext x
    simp

theorem processVector_keys_nodup (h : String → Int)
    (vdocs : List (Document × ℚ)) (m : DocDict)
    (hm : (dictKeys m).Nodup) :
    (dictKeys (processVector h m vdocs)).Nodup := by
  induction vdocs generalizing m with
  | nil => exact hm
  | cons p rest ih =>
    obtain ⟨doc, d⟩ := p
    rw [processVector]
    exact ih _ (nodup_dictKeys_dictSet _ hm)

theorem processVector_dictLookup (h : String → Int)
    (vdocs : List (Document × ℚ)) (m : DocDict) (id : Int)
    (hnd : (vdocs.map (fun p => getDocId h p.1)).Nodup) :
    dictLookup (processVector h m vdocs) id =
      match vectorHit h id vdocs with
      | some p => some ⟨p.1, 1 / (1 + p.2), 0⟩
      | none => dictLookup m id := by
  induction vdocs generalizing m with
  | nil => simp [processVector, vectorHit]
  | cons p rest ih =>
    obtain ⟨doc, d⟩ := p
    rw [List.map_cons, List.nodup_cons] at hnd
    rw [processVector]
    by_cases hid : getDocId h doc = id
    · have hrest : vectorHit h id rest = none := by
        rw [vectorHit_eq_none_iff]
        intro q hq hqid
        exact hnd.1 (by rw [hid, ← hqid]; exact List.mem_map_of_mem _ hq)
      rw [ih _ hnd.2, hrest, vectorHit, if_pos hid]
      rw [hid, dictLookup_dictSet_self]
    · rw [ih _ hnd.2, vectorHit, if_neg hid]
      cases vectorHit h id rest with
      | some q => rfl
      | none => exact dictLookup_dictSet_ne _ (fun hh => hid hh.symm)

theorem processBM25_keys_toFinset (h : String → Int) (kdocs : List Document)
    (m : DocDict) (i : Nat) :
    (dictKeys (processBM25 h m i kdocs)).toFinset =
      (dictKeys m).toFinset ∪ (kdocs.map (getDocId h)).toFinset := by
  induction kdocs generalizing m i with
  | nil => simp [processBM25]
  | cons doc rest ih =>
    simp only [processBM25]
    cases hl : dictLookup m (getDocId h doc) with
    | some e =>
      dsimp only
      rw [ih, dictKeys_dictSet_toFinset, List.map_cons, List.toFinset_cons,
        Finset.insert_union, Finset.union_insert]
    | none =>
      dsimp only
      rw [ih, dictKeys_append, List.toFinset_append, List.map_cons, List.toFinset_cons]
      ext x
      simp only [Finset.mem_union, Finset.mem_insert, List.mem_toFinset, dictKeys,
        List.map_cons, List.map_nil, List.mem_singleton, List.not_mem_nil, or_false]
      tauto

theorem processBM25_keys_nodup (h : String → Int) (kdocs : List Document)
    (m : DocDict) (i : Nat) (hm : (dictKeys m).Nodup) :
    (dictKeys (processBM25 h m i kdocs)).Nodup := by
  induction kdocs generalizing m i with
  | nil => exact hm
  | cons doc rest ih =>
    simp only [processBM25]
    cases hl : dictLookup m (getDocId h doc) with
    | some e =>
      dsimp only
      exact ih _ _ (nodup_dictKeys_dictSet _ hm)
    | none =>
      dsimp only
      refine ih _ _ ?_
      rw [dictKeys_append]
      have hnot : getDocId h doc ∉ dictKeys m := dictLookup_eq_none_iff.mp hl
      refine List.Nodup.append hm (List.nodup_singleton _) ?_
      intro a ha hb
      have hab : a = getDocId h doc := by
        simpa [dictKeys] using hb
      exact hnot (hab ▸ ha)

theorem processBM25_dictLookup (h : String → Int) (kdocs : List Document)
    (m : DocDict) (i : Nat) (id : Int)
    (hnd : (kdocs.map (getDocId h)).Nodup) :
    dictLookup (processBM25 h m i kdocs) id =
      match keywordHit h id i kdocs with
      | none => dictLookup m id
      | some q =>
        match dictLookup m id with
        | some e => some { e with bm25_score := 1 / ((q.1 : ℚ) + 1) }
        | none => some ⟨q.2, 0, 1 / ((q.1 : ℚ) + 1)⟩ := by
  induction kdocs generalizing m i with
  | nil => simp [processBM25, keywordHit]
  | cons doc rest ih =>
    rw [List.map_cons, List.nodup_cons] at hnd
    simp only [processBM25]
    by_cases hdid : getDocId h doc = id
    · subst hdid
      have hrest : keywordHit h (getDocId h doc) (i + 1) rest = none := by
        rw [keywordHit_eq_none_iff]
        intro q hq hqid
        exact hnd.1 (by rw [← hqid]; exact List.mem_map_of_mem _ hq)
      simp only [keywordHit, if_pos rfl]
      cases hl : dictLookup m (getDocId h doc) with
      | some e =>
        dsimp only
        rw [ih _ _ hnd.2, hrest]
        dsimp only
        rw [dictLookup_dictSet_self]
        simp
      | none =>
        dsimp only
        rw [ih _ _ hnd.2, hrest]
        dsimp only
        rw [dictLookup_append, hl]
        simp [dictLookup]
    · have hne : id ≠ getDocId h doc := fun hh => hdid hh.symm
      simp only [keywordHit, if_neg hdid]
      cases hl : dictLookup m (getDocId h doc) with
      | some e =>
        dsimp only
        rw [ih _ _ hnd.2, dictLookup_dictSet_ne _ hne]
      | none =>
        dsimp only
        rw [ih _ _ hnd.2]
        have hmid : dictLookup (m ++ [(getDocId h doc,
            ⟨doc, 0, 1 / ((i : ℚ) + 1)⟩)]) id = dictLookup m id := by
          rw [dictLookup_append]
          cases hl2 : dictLookup m id with
          | some v => rfl
          | none => simp [dictLookup, hne, hdid]
        rw [hmid]

/-! ### Claim C1 -/

/-- Claim C1: for every query (represented by the two backend result
lists) and every `k`, retrieval returns at most `k` documents, exactly
`min k (number of unique matched document identities across both
backends)` of them, and the fused list is sorted by combined score
descending before the truncation to `k`. -/
theorem retrieve_count_and_order (h : String → Int) (vw bw : ℚ) (k : Nat)
    (vdocs : List (Document × ℚ)) (kdocs : List Document) :
    (getRelevantDocuments h vw bw k vdocs kdocs).length
      = min k (uniqueMatchedCount h vdocs kdocs) ∧
    List.Sorted scoreDesc (combineScoredDocs h vw bw vdocs kdocs) ∧
    getRelevantDocuments h vw bw k vdocs kdocs
      = ((combineScoredDocs h vw bw vdocs kdocs).map Prod.fst).take k := by
  refine ⟨?_, ?_, rfl⟩
  · rw [getRelevantDocuments, List.length_take]
    congr 1
    rw [combineResults, List.length_map, combineScoredDocs,
      List.length_insertionSort, List.length_map]
    have hnodup : (dictKeys (fusedEntries h vdocs kdocs)).Nodup :=
      processBM25_keys_nodup h kdocs _ 0
        (processVector_keys_nodup h vdocs [] (by simp [dictKeys]))
    have hkeys : (dictKeys (fusedEntries h vdocs kdocs)).toFinset =
        ((vdocs.map Prod.fst ++ kdocs).map (getDocId h)).toFinset := by
      rw [fusedEntries, processBM25_keys_toFinset, processVector_keys_toFinset,
        List.map_append, List.toFinset_append, List.map_map]
      simp only [dictKeys, List.map_nil, List.toFinset_nil, Finset.empty_union]
      rfl
    have hlen : (fusedEntries h vdocs kdocs).length =
        (dictKeys (fusedEntries h vdocs kdocs)).length := by
      simp [dictKeys]
    rw [hlen, ← List.toFinset_card_of_nodup hnodup, hkeys, uniqueMatchedCount]
  · simp only [combineScoredDocs]
    exact List.sorted_insertionSort scoreDesc _

/-! ### Entry characterization -/

theorem vectorHit_eq_some {h : String → Int} {id : Int}
    {l : List (Document × ℚ)} {p : Document × ℚ}
    (hp : vectorHit h id l = some p) : getDocId h p.1 = id ∧ p ∈ l := by
  induction l with
  | nil => cases hp
  | cons q rest ih =>
    simp only [vectorHit] at hp
    by_cases hq : getDocId h q.1 = id
    · rw [if_pos hq] at hp
      injection hp with he
      subst he
      exact ⟨hq, List.mem_cons_self _ _⟩
    · rw [if_neg hq] at hp
      obtain ⟨h1, h2⟩ := ih hp
      exact ⟨h1, List.mem_cons_of_mem _ h2⟩

theorem keywordHit_eq_some {h : String → Int} {id : Int} {i : Nat}
    {l : List Document} {q : Nat × Document}
    (hq : keywordHit h id i l = some q) : getDocId h q.2 = id ∧ q.2 ∈ l := by
  induction l generalizing i with
  | nil => cases hq
  | cons doc rest ih =>
    simp only [keywordHit] at hq
    by_cases hd : getDocId h doc = id
    · rw [if_pos hd] at hq
      injection hq with he
      subst he
      exact ⟨hd, List.mem_cons_self _ _⟩
    · rw [if_neg hd] at hq
      obtain ⟨h1, h2⟩ := ih hq
      exact ⟨h1, List.mem_cons_of_mem _ h2⟩

theorem keywordRank_of_hit_none {h : String → Int} {id : Int}
    {l : List Document} (hk : keywordHit h id 0 l = none) :
    keywordRank h id l = none := by
  have hm := keywordHit_map_fst h id 0 l
  rw [hk] at hm
  cases hr : keywordRank h id l with
  | none => rfl
  | some r =>
    rw [hr] at hm
    cases hm

theorem keywordRank_of_hit_some {h : String → Int} {id : Int}
    {l : List Document} {q : Nat × Document}
    (hk : keywordHit h id 0 l = some q) : keywordRank h id l = some q.1 := by
  have hm := keywordHit_map_fst h id 0 l
  rw [hk] at hm
  cases hr : keywordRank h id l with
  | none =>
    rw [hr] at hm
    cases hm
  | some r =>
    rw [hr] at hm
    simp at hm
    have hqr : r = q.1 := by omega
    rw [hqr]

theorem fusedEntries_keys_nodup (h : String → Int)
    (vdocs : List (Document × ℚ)) (kdocs : List Document) :
    (dictKeys (fusedEntries h vdocs kdocs)).Nodup :=
  processBM25_keys_nodup h kdocs _ 0
    (processVector_keys_nodup h vdocs [] (by simp [dictKeys]))

theorem fusedEntries_keys_toFinset (h : String → Int)
    (vdocs : List (Document × ℚ)) (kdocs : List Document) :
    (dictKeys (fusedEntries h vdocs kdocs)).toFinset =
      ((vdocs.map Prod.fst ++ kdocs).map (getDocId h)).toFinset := by
  rw [fusedEntries, processBM25_keys_toFinset, processVector_keys_toFinset,
    List.map_append, List.toFinset_append, List.map_map]
  simp only [dictKeys, List.map_nil, List.toFinset_nil, Finset.empty_union]
  rfl

theorem fusedEntries_entry_char (h : String → Int)
    (vdocs : List (Document × ℚ)) (kdocs : List Document)
    (hv : (vdocs.map (fun p => getDocId h p.1)).Nodup)
    (hk : (kdocs.map (getDocId h)).Nodup) :
    ∀ q ∈ fusedEntries h vdocs kdocs,
      getDocId h q.2.doc = q.1 ∧
      q.2.vector_score = vecScoreOf h vdocs q.1 ∧
      q.2.bm25_score = kwScoreOf h kdocs q.1 := by
  rintro ⟨qk, qe⟩ hq
  have hlook : dictLookup (fusedEntries h vdocs kdocs) qk = some qe :=
    mem_of_nodup_lookup (fusedEntries_keys_nodup h vdocs kdocs) hq
  rw [fusedEntries, processBM25_dictLookup h kdocs _ 0 qk hk,
    processVector_dictLookup h vdocs [] qk hv] at hlook
  cases hkw : keywordHit h qk 0 kdocs with
  | none =>
    rw [hkw] at hlook
    dsimp only at hlook
    cases hvh : vectorHit h qk vdocs with
    | none =>
      rw [hvh] at hlook
      simp [dictLookup] at hlook
    | some p =>
      rw [hvh] at hlook
      dsimp only at hlook
      injection hlook with he
      subst he
      refine ⟨(vectorHit_eq_some hvh).1, ?_, ?_⟩
      · rw [vecScoreOf, vectorDistance_eq_vectorHit, hvh]
        rfl
      · rw [kwScoreOf, keywordRank_of_hit_none hkw]
  | some q =>
    rw [hkw] at hlook
    dsimp only at hlook
    cases hvh : vectorHit h qk vdocs with
    | none =>
      rw [hvh] at hlook
      simp only [dictLookup] at hlook
      injection hlook with he
      subst he
      refine ⟨(keywordHit_eq_some hkw).1, ?_, ?_⟩
      · rw [vecScoreOf, vectorDistance_eq_vectorHit, hvh]
        rfl
      · rw [kwScoreOf, keywordRank_of_hit_some hkw]
    | some p =>
      rw [hvh] at hlook
      dsimp only at hlook
      injection hlook with he
      subst he
      refine ⟨(vectorHit_eq_some hvh).1, ?_, ?_⟩
      · rw [vecScoreOf, vectorDistance_eq_vectorHit, hvh]
        rfl
      · rw [kwScoreOf, keywordRank_of_hit_some hkw]

theorem combineScored_score_formula (h : String → Int) (vw bw : ℚ)
    (vdocs : List (Document × ℚ)) (kdocs : List Document)
    (hv : (vdocs.map (fun p => getDocId h p.1)).Nodup)
    (hk : (kdocs.map (getDocId h)).Nodup) :
    ∀ p ∈ combineScoredDocs h vw bw vdocs kdocs,
      p.2 = vw * vecScoreOf h vdocs (getDocId h p.1)
          + bw * kwScoreOf h kdocs (getDocId h p.1) := by
  intro p hp
  rw [combineScoredDocs, List.mem_insertionSort] at hp
  obtain ⟨q, hq, rfl⟩ := List.mem_map.mp hp
  obtain ⟨h1, h2, h3⟩ := fusedEntries_entry_char h vdocs kdocs hv hk q hq
  dsimp only
  rw [h1, h2, h3]

/-! ### Claim C3 -/

/-- Claim C3: in the fused mapping, every document present in either
backend's results gets an entry whose combined score is
`vw * (1/(1+d)) + bw * (1/(r+1))`, `d` being its vector distance and `r`
its 0-indexed keyword rank, a component being `0` when the document is
absent from that backend; in particular, with an empty keyword result and
weights `(0.5, 0.5)` every fused document has keyword score `0` and
combined score `0.5 *` its vector score. -/
theorem fusion_score_characterization (h : String → Int) (vw bw : ℚ)
    (vdocs : List (Document × ℚ)) (kdocs : List Document)
    (hv : (vdocs.map (fun p => getDocId h p.1)).Nodup)
    (hk : (kdocs.map (getDocId h)).Nodup) :
    (∀ p ∈ combineScoredDocs h vw bw vdocs kdocs,
        p.2 = vw * vecScoreOf h vdocs (getDocId h p.1)
            + bw * kwScoreOf h kdocs (getDocId h p.1)) ∧
    (∀ doc ∈ vdocs.map Prod.fst ++ kdocs,
        ∃ p ∈ combineScoredDocs h vw bw vdocs kdocs,
          getDocId h p.1 = getDocId h doc) ∧
    (∀ p ∈ combineScoredDocs h (1 / 2) (1 / 2) vdocs [],
        kwScoreOf h [] (getDocId h p.1) = 0 ∧
        p.2 = 1 / 2 * vecScoreOf h vdocs (getDocId h p.1)) := by
  refine ⟨combineScored_score_formula h vw bw vdocs kdocs hv hk, ?_, ?_⟩
  · intro doc hdoc
    have hmem : getDocId h doc ∈ dictKeys (fusedEntries h vdocs kdocs) := by
      refine List.mem_toFinset.mp ?_
      rw [fusedEntries_keys_toFinset]
      exact List.mem_toFinset.mpr (List.mem_map_of_mem _ hdoc)
    simp only [dictKeys] at hmem
    obtain ⟨q, hq, hq1⟩ := List.mem_map.mp hmem
    obtain ⟨h1, _, _⟩ := fusedEntries_entry_char h vdocs kdocs hv hk q hq
    refine ⟨(q.2.doc, vw * q.2.vector_score + bw * q.2.bm25_score), ?_, ?_⟩
    · rw [combineScoredDocs, List.mem_insertionSort]
      exact List.mem_map.mpr ⟨q, hq, rfl⟩
    · dsimp only
      rw [h1, hq1]
  · intro p hp
    have hform := combineScored_score_formula h (1 / 2) (1 / 2) vdocs [] hv (by simp) p hp
    have hkw0 : kwScoreOf h [] (getDocId h p.1) = 0 := rfl
    refine ⟨hkw0, ?_⟩
    rw [hform, hkw0, mul_zero, add_zero]

theorem fusion_score_characterization_witness :
    (∀ p ∈ combineScoredDocs (pyHashStr 0) (7 / 10) (3 / 10)
        [(⟨"alpha", []⟩, 1 / 2), (⟨"beta", []⟩, 1)] [⟨"beta", []⟩, ⟨"gamma", []⟩],
        p.2 = 7 / 10 * vecScoreOf (pyHashStr 0)
                [(⟨"alpha", []⟩, 1 / 2), (⟨"beta", []⟩, 1)] (getDocId (pyHashStr 0) p.1)
            + 3 / 10 * kwScoreOf (pyHashStr 0)
                [⟨"beta", []⟩, ⟨"gamma", []⟩] (getDocId (pyHashStr 0) p.1)) ∧
    (∀ doc ∈ ([(⟨"alpha", []⟩, 1 / 2),
          (⟨"beta", []⟩, 1)] : List (Document × ℚ)).map Prod.fst ++ [⟨"beta", []⟩, ⟨"gamma", []⟩],
        ∃ p ∈ combineScoredDocs (pyHashStr 0) (7 / 10) (3 / 10)
            [(⟨"alpha", []⟩, 1 / 2), (⟨"beta", []⟩, 1)] [⟨"beta", []⟩, ⟨"gamma", []⟩],
          getDocId (pyHashStr 0) p.1 = getDocId (pyHashStr 0) doc) ∧
    (∀ p ∈ combineScoredDocs (pyHashStr 0) (1 / 2) (1 / 2)
        [(⟨"alpha", []⟩, 1 / 2), (⟨"beta", []⟩, 1)] [],
        kwScoreOf (pyHashStr 0) [] (getDocId (pyHashStr 0) p.1) = 0 ∧
        p.2 = 1 / 2 * vecScoreOf (pyHashStr 0)
            [(⟨"alpha", []⟩, 1 / 2), (⟨"beta", []⟩, 1)] (getDocId (pyHashStr 0) p.1)) :=
  fusion_score_characterization (pyHashStr 0) (7 / 10) (3 / 10)
    [(⟨"alpha", []⟩, 1 / 2), (⟨"beta", []⟩, 1)] [⟨"beta", []⟩, ⟨"gamma", []⟩]
    (by decide) (by decide)

/-! ### Claim C7 -/

theorem processVector_preserves_pos (h : String → Int) (id : Int) :
    ∀ (vdocs : List (Document × ℚ)) (m : DocDict),
      (∀ p ∈ vdocs, 0 ≤ p.2) →
      (∃ e, dictLookup m id = some e ∧ 0 < e.vector_score) →
      ∃ e, dictLookup (processVector h m vdocs) id = some e ∧ 0 < e.vector_score := by
  intro vdocs
  induction vdocs with
  | nil => exact fun m _ hP => hP
  | cons p rest ih =>
    intro m hd hP
    obtain ⟨doc, d⟩ := p
    rw [processVector]
    refine ih _ (fun q hq => hd q (List.mem_cons_of_mem _ hq)) ?_
    by_cases hid : getDocId h doc = id
    · refine ⟨⟨doc, 1 / (1 + d), 0⟩, ?_, ?_⟩
      · rw [← hid, dictLookup_dictSet_self]
      · have h0 : (0 : ℚ) ≤ d := hd (doc, d) (List.mem_cons_self _ _)
        have h1 : (0 : ℚ) < 1 + d := by linarith
        exact one_div_pos.mpr h1
    · obtain ⟨e, he, hpos⟩ := hP
      refine ⟨e, ?_, hpos⟩
      rw [dictLookup_dictSet_ne _ (fun hh => hid hh.symm)]
      exact he

theorem processVector_establishes_pos (h : String → Int) (d1 : Document) (dist : ℚ) :
    ∀ (vdocs : List (Document × ℚ)) (m : DocDict),
      (d1, dist) ∈ vdocs → (∀ p ∈ vdocs, 0 ≤ p.2) →
      ∃ e, dictLookup (processVector h m vdocs) (getDocId h d1) = some e ∧
        0 < e.vector_score := by
  intro vdocs
  induction vdocs with
  | nil => intro m hmem _; cases hmem
  | cons p rest ih =>
    intro m hmem hd
    obtain ⟨doc, d⟩ := p
    rw [processVector]
    rcases List.mem_cons.mp hmem with heq | ht
    · injection heq with he1 he2
      subst he1
      subst he2
      refine processVector_preserves_pos h (getDocId h d1) rest _
        (fun q hq => hd q (List.mem_cons_of_mem _ hq)) ?_
      refine ⟨⟨d1, 1 / (1 + dist), 0⟩, dictLookup_dictSet_self _ _ _, ?_⟩
      have h0 : (0 : ℚ) ≤ dist := hd (d1, dist) (List.mem_cons_self _ _)
      have h1 : (0 : ℚ) < 1 + dist := by linarith
      exact one_div_pos.mpr h1
    · exact ih _ ht (fun q hq => hd q (List.mem_cons_of_mem _ hq))

theorem processBM25_preserves_posQ (h : String → Int) (id : Int) :
    ∀ (kdocs : List Document) (m : DocDict) (i : Nat),
      (∃ e, dictLookup m id = some e ∧ 0 < e.vector_score ∧ 0 < e.bm25_score) →
      ∃ e, dictLookup (processBM25 h m i kdocs) id = some e ∧
        0 < e.vector_score ∧ 0 < e.bm25_score := by
  intro kdocs
  induction kdocs with
  | nil => exact fun m i hQ => hQ
  | cons doc rest ih =>
    intro m i hQ
    obtain ⟨e, he, hv, hb⟩ := hQ
    simp only [processBM25]
    by_cases hdid : getDocId h doc = id
    · rw [hdid, he]
      dsimp only
      refine ih _ _ ⟨{ e with bm25_score := 1 / ((i : ℚ) + 1) },
        by rw [dictLookup_dictSet_self], hv, ?_⟩
      have h1 : (0 : ℚ) < (i : ℚ) + 1 := by positivity
      exact one_div_pos.mpr h1
    · have hne : id ≠ getDocId h doc := fun hh => hdid hh.symm
      cases hl : dictLookup m (getDocId h doc) with
      | some e0 =>
        dsimp only
        refine ih _ _ ⟨e, ?_, hv, hb⟩
        rw [dictLookup_dictSet_ne _ hne]
        exact he
      | none =>
        dsimp only
        refine ih _ _ ⟨e, ?_, hv, hb⟩
        rw [dictLookup_append, he]

theorem processBM25_establishes_pos (h : String → Int) (id : Int) (d2 : Document)
    (hgid : getDocId h d2 = id) :
    ∀ (kdocs : List Document) (m : DocDict) (i : Nat),
      d2 ∈ kdocs →
      (∃ e, dictLookup m id = some e ∧ 0 < e.vector_score) →
      ∃ e, dictLookup (processBM25 h m i kdocs) id = some e ∧
        0 < e.vector_score ∧ 0 < e.bm25_score := by
  intro kdocs
  induction kdocs with
  | nil => intro m i hmem _; cases hmem
  | cons doc rest ih =>
    intro m i hmem hP
    obtain ⟨e, he, hv⟩ := hP
    simp only [processBM25]
    by_cases hdid : getDocId h doc = id
    · rw [hdid, he]
      dsimp only
      refine processBM25_preserves_posQ h id rest _ _
        ⟨{ e with bm25_score := 1 / ((i : ℚ) + 1) },
          by rw [dictLookup_dictSet_self], hv, ?_⟩
      have h1 : (0 : ℚ) < (i : ℚ) + 1 := by positivity
      exact one_div_pos.mpr h1
    · rcases List.mem_cons.mp hmem with heq | ht
      · subst heq
        exact absurd hgid hdid
      · have hne : id ≠ getDocId h doc := fun hh => hdid hh.symm
        cases hl : dictLookup m (getDocId h doc) with
        | some e0 =>
          dsimp only
          refine ih _ _ ht ⟨e, ?_, hv⟩
          rw [dictLookup_dictSet_ne _ hne]
          exact he
        | none =>
          dsimp only
          refine ih _ _ ht ⟨e, ?_, hv⟩
          rw [dictLookup_append, he]

/-- Claim C7: when the vector results and the keyword results both contain
a hit with the same document content (even as independently constructed
chunk objects), the fused mapping contains exactly one entry for that
identity, with both its vector and keyword score components populated
(strictly positive), never two entries with partial scores. -/
theorem dedup_collapses_shared_content (h : String → Int)
    (vdocs : List (Document × ℚ)) (kdocs : List Document)
    (d1 : Document) (dist : ℚ) (d2 : Document)
    (h1 : (d1, dist) ∈ vdocs) (h2 : d2 ∈ kdocs)
    (hc : d1.content = d2.content)
    (hd : ∀ p ∈ vdocs, 0 ≤ p.2) :
    (fusedEntries h vdocs kdocs).countP (fun p => decide (p.1 = getDocId h d1)) = 1 ∧
    ∃ e, dictLookup (fusedEntries h vdocs kdocs) (getDocId h d1) = some e ∧
      0 < e.vector_score ∧ 0 < e.bm25_score := by
  have hgid : getDocId h d2 = getDocId h d1 := by simp [getDocId, hc]
  have hP := processVector_establishes_pos h d1 dist vdocs [] h1 hd
  have hQ := processBM25_establishes_pos h (getDocId h d1) d2 hgid kdocs _ 0 h2 hP
  refine ⟨?_, hQ⟩
  obtain ⟨e, he, _, _⟩ := hQ
  exact countP_key_eq_one (fusedEntries_keys_nodup h vdocs kdocs) (dictLookup_mem_keys he)

theorem dedup_collapses_shared_content_witness :
    (fusedEntries (pyHashStr 0) [(⟨"alpha", [("s", "v")]⟩, 1 / 2)]
        [⟨"alpha", [("s", "k")]⟩]).countP
      (fun p => decide (p.1 = getDocId (pyHashStr 0) ⟨"alpha", [("s", "v")]⟩)) = 1 ∧
    ∃ e, dictLookup (fusedEntries (pyHashStr 0) [(⟨"alpha", [("s", "v")]⟩, 1 / 2)]
        [⟨"alpha", [("s", "k")]⟩]) (getDocId (pyHashStr 0) ⟨"alpha", [("s", "v")]⟩) = some e ∧
      0 < e.vector_score ∧ 0 < e.bm25_score :=
  dedup_collapses_shared_content (pyHashStr 0) _ _ ⟨"alpha", [("s", "v")]⟩ (1 / 2)
    ⟨"alpha", [("s", "k")]⟩ (List.mem_singleton.mpr rfl) (List.mem_singleton.mpr rfl) rfl
    (by rintro p hp; rw [List.mem_singleton] at hp; subst hp; norm_num)

/-! ### Claim C9 -/

/-- Key, document and vector score of a fused entry (the data the BM25
pass never modifies). -/
def entryView (q : Int × ScoreEntry) : Int × (Document × ℚ) :=
  (q.1, (q.2.doc, q.2.vector_score))

theorem dictSet_map_view {m : DocDict} {id : Int} {e : ScoreEntry} (s : ℚ)
    (hl : dictLookup m id = some e) :
    (dictSet m id { e with bm25_score := s }).map entryView = m.map entryView := by
  induction m with
  | nil => cases hl
  | cons p rest ih =>
    by_cases hpk : p.1 = id
    · simp only [dictLookup, if_pos hpk] at hl
      injection hl with he
      subst he
      subst hpk
      simp [dictSet, entryView]
    · simp only [dictLookup, if_neg hpk] at hl
      simp only [dictSet, if_neg hpk, List.map_cons, ih hl]

theorem processBM25_map_view (h : String → Int) :
    ∀ (kdocs : List Document) (m : DocDict) (i : Nat),
      ∃ rest : List (Int × (Document × ℚ)),
        (processBM25 h m i kdocs).map entryView = m.map entryView ++ rest ∧
        (∀ q ∈ rest, q.1 ∉ dictKeys m) ∧
        (∀ q ∈ rest, getDocId h q.2.1 = q.1) := by
  intro kdocs
  induction kdocs with
  | nil =>
    intro m i
    exact ⟨[], by simp [processBM25], by simp, by simp⟩
  | cons doc rest ih =>
    intro m i
    simp only [processBM25]
    cases hl : dictLookup m (getDocId h doc) with
    | some e =>
      dsimp only
      obtain ⟨r2, hr1, hr2, hr3⟩ :=
        ih (dictSet m (getDocId h doc) { e with bm25_score := 1 / ((i : ℚ) + 1) }) (i + 1)
      refine ⟨r2, ?_, ?_, hr3⟩
      · rw [hr1, dictSet_map_view _ hl]
      · intro q hq
        have hq2 := hr2 q hq
        rwa [dictKeys_dictSet_mem _ (dictLookup_mem_keys hl)] at hq2
    | none =>
      dsimp only
      obtain ⟨r2, hr1, hr2, hr3⟩ :=
        ih (m ++ [(getDocId h doc, ⟨doc, 0, 1 / ((i : ℚ) + 1)⟩)]) (i + 1)
      refine ⟨entryView (getDocId h doc, ⟨doc, 0, 1 / ((i : ℚ) + 1)⟩) :: r2, ?_, ?_, ?_⟩
      · rw [hr1, List.map_append]
        simp
      · intro q hq
        rcases List.mem_cons.mp hq with rfl | hq2
        · exact dictLookup_eq_none_iff.mp hl
        · exact fun hmem => hr2 q hq2
            (by rw [dictKeys_append]; exact List.mem_append_left _ hmem)
      · intro q hq
        rcases List.mem_cons.mp hq with rfl | hq2
        · rfl
        · exact hr3 q hq2

theorem processVector_eq_append (h : String → Int) :
    ∀ (vdocs : List (Document × ℚ)) (m : DocDict),
      (∀ p ∈ vdocs, getDocId h p.1 ∉ dictKeys m) →
      (vdocs.map (fun p => getDocId h p.1)).Nodup →
      processVector h m vdocs =
        m ++ vdocs.map (fun p => (getDocId h p.1, ⟨p.1, 1 / (1 + p.2), 0⟩)) := by
  intro vdocs
  induction vdocs with
  | nil => intro m _ _; simp [processVector]
  | cons p rest ih =>
    intro m hdisj hnd
    obtain ⟨doc, d⟩ := p
    rw [List.map_cons, List.nodup_cons] at hnd
    rw [processVector,
      dictSet_eq_append_of_not_mem _ (hdisj (doc, d) (List.mem_cons_self _ _))]
    have hstep := ih (m ++ [(getDocId h doc, ⟨doc, 1 / (1 + d), 0⟩)]) ?_ hnd.2
    · rw [hstep]
      simp
    · intro q hq
      rw [dictKeys_append]
      intro hmem
      rcases List.mem_append.mp hmem with hA | hB
      · exact hdisj q (List.mem_cons_of_mem _ hq) hA
      · have hBid : getDocId h q.1 = getDocId h doc := by
          simpa [dictKeys] using hB
        exact hnd.1 (by rw [← hBid]; exact List.mem_map_of_mem _ hq)

theorem insertionSort_filter_stable (l : List (Document × ℚ))
    (p : Document × ℚ → Bool)
    (hp : (l.filter p).Pairwise scoreDesc) :
    (List.insertionSort scoreDesc l).filter p = l.filter p := by
  have hsub : List.Sublist (l.filter p) (List.insertionSort scoreDesc l) :=
    List.sublist_insertionSort hp (List.filter_sublist l)
  have hall : ∀ x ∈ l.filter p, p x := fun x hx => List.of_mem_filter hx
  have hsub2 := hsub.filter p
  rw [List.filter_eq_self.mpr hall] at hsub2
  have hperm : ((List.insertionSort scoreDesc l).filter p).Perm (l.filter p) :=
    (List.perm_insertionSort scoreDesc l).filter p
  exact (hsub2.eq_of_length hperm.length_eq.symm).symm

/-- Claim C9: with the pure-vector weight configuration
(`vector_weight = 1`, `keyword_weight = 0`), the documents the vector
backend returned appear in the fused output in the same relative order as
in the vector backend's own ranking (distances listed non-decreasing). -/
theorem pure_vector_order (h : String → Int)
    (vdocs : List (Document × ℚ)) (kdocs : List Document)
    (hv : (vdocs.map (fun p => getDocId h p.1)).Nodup)
    (hsorted : vdocs.Pairwise (fun a b => a.2 ≤ b.2))
    (hd : ∀ p ∈ vdocs, 0 ≤ p.2) :
    (combineResults h 1 0 vdocs kdocs).filter
        (fun doc => decide (getDocId h doc ∈ vdocs.map (fun p => getDocId h p.1)))
      = vdocs.map Prod.fst := by
  have hPV : processVector h [] vdocs =
      vdocs.map (fun p => (getDocId h p.1, ⟨p.1, 1 / (1 + p.2), 0⟩)) := by
    have hstep := processVector_eq_append h vdocs []
      (by intro p hp; simp [dictKeys]) hv
    simpa using hstep
  obtain ⟨rest, hr1, hr2, hr3⟩ :=
    processBM25_map_view h kdocs (processVector h [] vdocs) 0
  have hkeysPV : dictKeys (processVector h [] vdocs) =
      vdocs.map (fun p => getDocId h p.1) := by
    rw [hPV, dictKeys, List.map_map]
    rfl
  have hLmap : (fusedEntries h vdocs kdocs).map
      (fun q => (q.2.doc, 1 * q.2.vector_score + 0 * q.2.bm25_score)) =
      vdocs.map (fun p => (p.1, 1 / (1 + p.2))) ++ rest.map Prod.snd := by
    have hfg : (fun q : Int × ScoreEntry =>
        (q.2.doc, 1 * q.2.vector_score + 0 * q.2.bm25_score)) =
        (Prod.snd ∘ entryView) := by
      funext q
      simp only [entryView, Function.comp]
      rw [one_mul, zero_mul, add_zero]
    rw [hfg, ← List.map_map, fusedEntries, hr1, List.map_append, hPV,
      List.map_map, List.map_map]
    rfl
  have hVall : ∀ x ∈ vdocs.map (fun p : Document × ℚ => (p.1, 1 / (1 + p.2))),
      (fun q : Document × ℚ =>
        decide (getDocId h q.1 ∈ vdocs.map (fun p => getDocId h p.1))) x = true := by
    intro x hx
    obtain ⟨p, hp, rfl⟩ := List.mem_map.mp hx
    simp only [decide_eq_true_eq]
    exact List.mem_map_of_mem _ hp
  have hRnone : ∀ x ∈ rest.map Prod.snd,
      ¬ (fun q : Document × ℚ =>
        decide (getDocId h q.1 ∈ vdocs.map (fun p => getDocId h p.1))) x = true := by
    intro x hx
    obtain ⟨q, hq, rfl⟩ := List.mem_map.mp hx
    simp only [decide_eq_true_eq]
    rw [hr3 q hq]
    intro hmem
    exact hr2 q hq (by rw [hkeysPV]; exact hmem)
  have hLfilter : ((fusedEntries h vdocs kdocs).map
      (fun q => (q.2.doc, 1 * q.2.vector_score + 0 * q.2.bm25_score))).filter
        (fun q : Document × ℚ =>
          decide (getDocId h q.1 ∈ vdocs.map (fun p => getDocId h p.1))) =
      vdocs.map (fun p => (p.1, 1 / (1 + p.2))) := by
    rw [hLmap, List.filter_append, List.filter_eq_self.mpr hVall,
      List.filter_eq_nil_iff.mpr hRnone, List.append_nil]
  have hVpw : (vdocs.map
      (fun p : Document × ℚ => (p.1, 1 / (1 + p.2)))).Pairwise scoreDesc := by
    rw [List.pairwise_map]
    refine hsorted.imp_of_mem ?_
    intro a b ha hb hab
    have h0a : (0 : ℚ) ≤ a.2 := hd a ha
    have h1 : (0 : ℚ) < 1 + a.2 := by linarith
    have h2 : 1 + a.2 ≤ 1 + b.2 := by linarith
    exact one_div_le_one_div_of_le h1 h2
  rw [combineResults, combineScoredDocs, List.filter_map]
  have hcomp : ((fun doc =>
      decide (getDocId h doc ∈ vdocs.map (fun p => getDocId h p.1))) ∘ Prod.fst)
      = (fun q : Document × ℚ =>
        decide (getDocId h q.1 ∈ vdocs.map (fun p => getDocId h p.1))) := rfl
  rw [hcomp]
  rw [insertionSort_filter_stable _ _ (by rw [hLfilter]; exact hVpw), hLfilter,
    List.map_map]
  rfl

theorem pure_vector_order_witness :
    (combineResults (pyHashStr 0) 1 0
        [(⟨"alpha", []⟩, 0), (⟨"beta", []⟩, 1 / 2)] [⟨"gamma", []⟩, ⟨"alpha", []⟩]).filter
        (fun doc => decide (getDocId (pyHashStr 0) doc ∈
          ([(⟨"alpha", []⟩, 0), (⟨"beta", []⟩, 1 / 2)] : List (Document × ℚ)).map
            (fun p => getDocId (pyHashStr 0) p.1)))
      = ([(⟨"alpha", []⟩, 0), (⟨"beta", []⟩, 1 / 2)] : List (Document × ℚ)).map Prod.fst :=
  pure_vector_order (pyHashStr 0) [(⟨"alpha", []⟩, 0), (⟨"beta", []⟩, 1 / 2)]
    [⟨"gamma", []⟩, ⟨"alpha", []⟩] (by decide)
    (by norm_num [List.pairwise_cons])
    (by intro p hp; fin_cases hp <;> norm_num)

/-! ### Claim C8 -/

theorem relevance_isSome (queryTerms : Finset String) (d : Document)
    (hne : d.content ≠ "") :
    ∃ s, calculateRelevanceScore queryTerms d = some s := by
  simp only [calculateRelevanceScore]
  by_cases htot : (queryTerms ∪ termSet d.content).card = 0
  · exact ⟨0, by rw [if_pos htot]⟩
  · have hlist : d.content.toList ≠ [] := by
      intro hnil
      exact hne (String.ext hnil)
    have hlen : ¬ (pyLower d.content).toList.length = 0 := by
      rw [pyLower_toList_length]
      exact fun hzero => hlist (List.length_eq_zero.mp hzero)
    rw [if_neg htot, if_neg hlen]
    exact ⟨_, rfl⟩

theorem mapOpt_scores_some (docs : List Document) (query : String)
    (hne : ∀ d ∈ docs, d.content ≠ "") :
    ∃ Z : List (Document × ℚ),
      mapOpt (fun d => (calculateRelevanceScore (termSet query) d).map
        (fun s => (d, s))) docs = some Z ∧
      Z.map Prod.fst = docs := by
  induction docs with
  | nil => exact ⟨[], rfl, rfl⟩
  | cons d rest ih =>
    obtain ⟨Z, hZ, hfst⟩ := ih (fun x hx => hne x (List.mem_cons_of_mem _ hx))
    obtain ⟨s, hs⟩ := relevance_isSome (termSet query) d
      (hne d (List.mem_cons_self _ _))
    refine ⟨(d, s) :: Z, ?_, ?_⟩
    · simp only [mapOpt, hs, hZ]
      rfl
    · simp [hfst]

/-- Claim C8: whenever the reranking step runs to completion (no document
has empty content, so no division-by-zero occurs), it returns a
permutation of its candidate list — the multiset of documents is
unchanged, only the order changes — the scored list is sorted by relevance
descending, and ties under the relevance score keep their relative input
order (the per-score-class sublists are untouched, i.e. the sort is
stable). -/
theorem rerank_permutation_stable (docs : List Document) (query : String)
    (hne : ∀ d ∈ docs, d.content ≠ "") :
    ∃ Z : List (Document × ℚ),
      mapOpt (fun d => (calculateRelevanceScore (termSet query) d).map
        (fun s => (d, s))) docs = some Z ∧
      Z.map Prod.fst = docs ∧
      rerankScored docs query = some (List.insertionSort scoreDesc Z) ∧
      rerankDocuments docs query = some ((List.insertionSort scoreDesc Z).map Prod.fst) ∧
      ((List.insertionSort scoreDesc Z).map Prod.fst).Perm docs ∧
      List.Sorted scoreDesc (List.insertionSort scoreDesc Z) ∧
      ∀ c : ℚ, (List.insertionSort scoreDesc Z).filter (fun p => decide (p.2 = c))
        = Z.filter (fun p => decide (p.2 = c)) := by
  obtain ⟨Z, hZ, hfst⟩ := mapOpt_scores_some docs query hne
  have hscored : rerankScored docs query = some (List.insertionSort scoreDesc Z) := by
    simp only [rerankScored, hZ]
  refine ⟨Z, hZ, hfst, hscored, ?_, ?_, List.sorted_insertionSort _ _, ?_⟩
  · rw [rerankDocuments, hscored]
    rfl
  · have hperm := (List.perm_insertionSort scoreDesc Z).map Prod.fst
    rwa [hfst] at hperm
  · intro c
    apply insertionSort_filter_stable
    refine List.pairwise_of_forall_mem_list ?_
    intro a ha b hb
    have ha2 : a.2 = c := of_decide_eq_true (List.mem_filter.mp ha).2
    have hb2 : b.2 = c := of_decide_eq_true (List.mem_filter.mp hb).2
    show b.2 ≤ a.2
    rw [ha2, hb2]

theorem rerank_permutation_stable_witness :
    ∃ Z : List (Document × ℚ),
      mapOpt (fun d => (calculateRelevanceScore (termSet "ab") d).map
        (fun s => (d, s))) [⟨"ab", []⟩, ⟨"ab cd", []⟩] = some Z ∧
      Z.map Prod.fst = [⟨"ab", []⟩, ⟨"ab cd", []⟩] ∧
      rerankScored [⟨"ab", []⟩, ⟨"ab cd", []⟩] "ab"
        = some (List.insertionSort scoreDesc Z) ∧
      rerankDocuments [⟨"ab", []⟩, ⟨"ab cd", []⟩] "ab"
        = some ((List.insertionSort scoreDesc Z).map Prod.fst) ∧
      ((List.insertionSort scoreDesc Z).map Prod.fst).Perm
        [⟨"ab", []⟩, ⟨"ab cd", []⟩] ∧
      List.Sorted scoreDesc (List.insertionSort scoreDesc Z) ∧
      ∀ c : ℚ, (List.insertionSort scoreDesc Z).filter (fun p => decide (p.2 = c))
        = Z.filter (fun p => decide (p.2 = c)) :=
  rerank_permutation_stable [⟨"ab", []⟩, ⟨"ab cd", []⟩] "ab" (by decide)

/-- Claim C8 (counterexample): on a candidate list containing a document
with empty content, reranking against a query with at least one term
raises the division-by-zero error instead of returning any list, so it
does not return a permutation of its input. -/
theorem rerank_not_total_cex :
    rerankDocuments [⟨"", []⟩] "ab" = none := by decide

theorem init_error_characterization_witness :
    (initHybridRetriever 2 2 7 = .error .zeroDivision ↔ (2 : ℚ) + 2 = 0) ∧
    ((2 : ℚ) + 2 ≠ 0 → ∃ cfg, initHybridRetriever 2 2 7 = .ok cfg) :=
  init_error_characterization 2 2 7
